import Mathlib

/-!
Verification development for the road-network graph builder and the budgeted
shortest-path accessible-area computation of the urban-structure-analysis
plugin (module `src/algorithms/utils/area_data_generator.py`).

Coordinates are modelled exactly as rational pairs.  Edge costs and distances
are generic over the arithmetic and order operations of the scalar type: the
concrete pipeline instantiates them at the real numbers (the source computes
Euclidean segment lengths, which are square roots), while concrete
executions are carried out at the rationals and transported to the reals
through cast lemmas proved below.
-/

set_option maxHeartbeats 2000000
set_option maxRecDepth 20000

/-- A 2D coordinate, identified exactly (the source keys dictionaries and
sets by coordinate values). -/
abbrev Point : Type := ℚ × ℚ

/-- Default point used to totalise list indexing (the source never indexes
out of range for graphs produced by the builder). -/
def ptDefault : Point := (0, 0)

/-- A directed edge record as stored by QgsGraphBuilder.addEdge: the id of
the from-vertex, the id of the to-vertex, and the cost (the Euclidean length
of the originating segment). -/
structure GEdge (α : Type) where
  fromV : ℕ
  toV : ℕ
  cost : α
deriving DecidableEq, Repr

/-- The graph produced by the builder: vertex id i is the i-th coordinate of
`verts` (ids are assigned by an increasing counter, so they coincide with
list positions), and `edges` is the list of directed edge records in
insertion order. -/
structure Graph (α : Type) where
  verts : List Point
  edges : List (GEdge α)
deriving DecidableEq, Repr

/-- Geometry of one road feature, as dispatched on by the source
(`road_geom.isEmpty()` skips, LineString yields one polyline,
MultiLineString yields a list of polylines, other types are skipped with a
warning). -/
inductive RoadGeometry where
  | emptyGeom : RoadGeometry
  | lineString (pts : List Point) : RoadGeometry
  | multiLineString (lines : List (List Point)) : RoadGeometry
  | otherGeom : RoadGeometry
deriving DecidableEq, Repr

/-- The polylines the source iterates for a feature geometry. -/
def roadLines : RoadGeometry → List (List Point)
  | RoadGeometry.emptyGeom => []
  | RoadGeometry.lineString pts => [pts]
  | RoadGeometry.multiLineString lines => lines
  | RoadGeometry.otherGeom => []

/-- Consecutive point pairs of one polyline: the source loops
`for i in range(len(line) - 1)` over `(line[i], line[i+1])`, skipping lines
with fewer than 2 points. -/
def lineSegments (line : List Point) : List (Point × Point) :=
  if line.length < 2 then [] else line.zip line.tail

/-- All segments processed by the builder, in processing order.  The nested
source loops (features, then lines, then consecutive pairs) apply one
identical per-segment update to the builder state, so they are flattened
into this single list. -/
def roadSegments (roads : List RoadGeometry) : List (Point × Point) :=
  roads.flatMap (fun r => (roadLines r).flatMap lineSegments)

/-- The vertex id held in `vertex_map` for a coordinate: ids are assigned
from an increasing counter exactly when a coordinate is first inserted, so
the id is the position of the coordinate in the vertex list. -/
def vertexId (vs : List Point) (p : Point) : ℕ :=
  vs.findIdx fun q => decide (q = p)

/-- Squared Euclidean distance between two coordinates (exact rational
arithmetic). -/
def sqDist (p q : Point) : ℚ :=
  (q.1 - p.1) ^ 2 + (q.2 - p.2) ^ 2

/-- Euclidean length of the segment from p to q, as computed by
`QgsGeometry.fromPolylineXY([p1, p2]).length()` in the source. -/
noncomputable def segLength (p q : Point) : ℝ :=
  Real.sqrt ((sqDist p q : ℚ) : ℝ)

/-- One iteration of the builder loop body: look up or create vertex ids for
the two endpoints (dedup by exact coordinate equality through `vertex_map`),
then append one directed edge weighted by `w` applied to the endpoints. -/
def addSegment (w : Point → Point → α) (g : Graph α) (s : Point × Point) : Graph α :=
  let vs1 := if s.1 ∈ g.verts then g.verts else g.verts ++ [s.1]
  let vs2 := if s.2 ∈ vs1 then vs1 else vs1 ++ [s.2]
  { verts := vs2
    edges := g.edges ++ [{ fromV := vertexId vs2 s.1, toV := vertexId vs2 s.2, cost := w s.1 s.2 }] }

/-- The builder fold, generic in the weight function. -/
def buildGraph (w : Point → Point → α) (roads : List RoadGeometry) : Graph α :=
  (roadSegments roads).foldl (addSegment w) { verts := [], edges := [] }

/-- Embedding of `__extract_road_nodes`: the builder instantiated with the
Euclidean segment length as the weight function. -/
noncomputable def extractRoadNodes (roads : List RoadGeometry) : Graph ℝ :=
  buildGraph segLength roads

/-- Every coordinate occurring as a segment endpoint in the input features,
with multiplicity, in processing order. -/
def segmentEndpoints (roads : List RoadGeometry) : List Point :=
  (roadSegments roads).flatMap (fun s => [s.1, s.2])

/-- Lexicographic order on heap entries `(distance, (x, y))`: Python tuple
comparison as used by heapq. -/
def entryLE [LinearOrder α] (e m : α × Point) : Prop :=
  e.1 < m.1 ∨ (e.1 = m.1 ∧ (e.2.1 < m.2.1 ∨ (e.2.1 = m.2.1 ∧ e.2.2 ≤ m.2.2)))

instance entryLEDec [LinearOrder α] (e m : α × Point) : Decidable (entryLE e m) := by
  unfold entryLE
  exact inferInstance

/-- Removing the least entry of the queue (the value `heapq.heappop`
returns).  Entries are compared by full lexicographic tuple order, so the
minimum value is unique and the pop sequence of the binary heap is exactly
reproduced by selecting the minimum of the multiset of entries. -/
def popMin [LinearOrder α] : List (α × Point) → Option ((α × Point) × List (α × Point))
  | [] => none
  | e :: es =>
    match popMin es with
    | none => some (e, [])
    | some (m, rest) => if entryLE e m then some (e, es) else some (m, e :: rest)

/-- Edges examined from a popped vertex:
`graph.vertex(vid).outgoingEdges() + graph.vertex(vid).incomingEdges()`. -/
def incidentEdges (g : Graph α) (vid : ℕ) : List (GEdge α) :=
  g.edges.filter (fun e => decide (e.fromV = vid)) ++
    g.edges.filter (fun e => decide (e.toV = vid))

/-- Embedding of `graph.findVertex(point)` (first vertex with the given
coordinates; -1, modelled as `none`, if absent). -/
def findVertex (g : Graph α) (p : Point) : Option ℕ :=
  g.verts.findIdx? fun q => decide (q = p)

/-- The buffer width formula of the source:
`buffer_distance * (max_distance - new_distance) / max_distance`. -/
def bufferWidth [Sub α] [Mul α] [Div α] (bufferDistance md nd : α) : α :=
  bufferDistance * (md - nd) / md

/-- One collected buffered line: the segment between the two endpoint
coordinates of the traversed edge, buffered by `width`.  The field `dist`
records the tentative cumulative distance `new_distance` the width was
computed from (the source keeps only the resulting polygon; the distance is
kept here so that properties of the emitted widths can be stated). -/
structure BufferEmission (α : Type) where
  p1 : Point
  p2 : Point
  dist : α
  width : α
deriving DecidableEq, Repr

/-- The visited test applied to a neighbor in the source:
`next_node not in searched_list`.  In the source `searched_list` is a set of
coordinate tuples (the popped queue entries), while `next_node` is a
QgsPointXY object; Python set membership of a QgsPointXY in a set of tuples
is always false (a QgsPointXY object is never equal to a tuple), so this
test never reports the neighbor as visited.  The function records that fact:
it is constantly `false`. -/
def pointXYInTupleSet (nextNode : Point) (searchedList : List Point) : Bool :=
  false

/-- Processing of the incident-edge list of one popped vertex: returns the
queue entries pushed and the buffer emissions collected, in edge order. -/
def processEdges [Add α] [Sub α] [Mul α] [Div α] [LinearOrder α]
    (g : Graph α) (md bd cd : α) (cn : Point)
    (searched : List Point) : List (GEdge α) → List (α × Point) × List (BufferEmission α)
  | [] => ([], [])
  | edge :: rest =>
    let startNode := g.verts.getD edge.fromV ptDefault
    let endNode := g.verts.getD edge.toV ptDefault
    let acc := processEdges g md bd cd cn searched rest
    match (if cn = startNode then some endNode
           else if cn = endNode then some startNode else none) with
    | none => acc
    | some nextNode =>
      let nd := cd + edge.cost
      if pointXYInTupleSet nextNode searched = false ∧ nd ≤ md then
        ((nd, nextNode) :: acc.1,
         (if nd ≤ md then
            [{ p1 := startNode, p2 := endNode, dist := nd, width := bufferWidth bd md nd }]
          else []) ++ acc.2)
      else acc

/-- The main search loop of `dijkstra`, with explicit fuel (the source loop
runs until the queue is empty; the fuel bound `dijkstraFuel` below is proved
sufficient).  Besides the collected buffer list the loop returns a counter
of how many pops took the over-budget discard branch
(`if current_distance > max_distance: continue`). -/
def dijkstraLoop [Add α] [Sub α] [Mul α] [Div α] [LinearOrder α] (g : Graph α) (md bd : α) :
    ℕ → List (α × Point) → List Point → List (BufferEmission α) → ℕ →
      Option (List (BufferEmission α) × ℕ)
  | fuel, queue, searched, roads, over =>
    match popMin queue with
    | none => some (roads, over)
    | some ((cd, cn), rest) =>
      match fuel with
      | 0 => none
      | fuel' + 1 =>
        if cn ∈ searched then
          dijkstraLoop g md bd fuel' rest searched roads over
        else
          if md < cd then
            dijkstraLoop g md bd fuel' rest (cn :: searched) roads (over + 1)
          else
            match findVertex g cn with
            | none => dijkstraLoop g md bd fuel' rest (cn :: searched) roads over
            | some vid =>
              let pe := processEdges g md bd cd cn (cn :: searched) (incidentEdges g vid)
              dijkstraLoop g md bd fuel' (rest ++ pe.1) (cn :: searched) (roads ++ pe.2) over

/-- Fuel bound for the loop, proved sufficient below (one more than the
initial value of the termination measure). -/
def dijkstraFuel (g : Graph α) (seeds : List Point) : ℕ :=
  seeds.length + (ptDefault :: (g.verts ++ seeds)).length * (1 + 2 * g.edges.length) + 1

/-- Embedding of `dijkstra`: seed the queue with `(0, seed)` for every seed
coordinate and run the loop.  The source finally returns
`[unary_union(searched_roads)]`; the collected buffer list (from which that
union is formed) is returned here, together with the over-budget pop
counter. -/
def dijkstra [Zero α] [Add α] [Sub α] [Mul α] [Div α] [LinearOrder α]
    (g : Graph α) (startPoints : List Point) (md bd : α) :
    Option (List (BufferEmission α) × ℕ) :=
  dijkstraLoop g md bd (dijkstraFuel g startPoints)
    (startPoints.map fun s => ((0 : α), s)) [] [] 0

/-- Variant of `processEdges` modelled from the spec: identical to the code
except that the neighbor visited test actually compares the neighbor
coordinate with the visited coordinates, as the spec describes
("If the neighbor is unvisited and the tentative distance does not exceed
max_distance, push ... AND emit a buffer polygon"). -/
def processEdgesSpec [Add α] [Sub α] [Mul α] [Div α] [LinearOrder α]
    (g : Graph α) (md bd cd : α) (cn : Point)
    (searched : List Point) : List (GEdge α) → List (α × Point) × List (BufferEmission α)
  | [] => ([], [])
  | edge :: rest =>
    let startNode := g.verts.getD edge.fromV ptDefault
    let endNode := g.verts.getD edge.toV ptDefault
    let acc := processEdgesSpec g md bd cd cn searched rest
    match (if cn = startNode then some endNode
           else if cn = endNode then some startNode else none) with
    | none => acc
    | some nextNode =>
      let nd := cd + edge.cost
      if nextNode ∉ searched ∧ nd ≤ md then
        ((nd, nextNode) :: acc.1,
         [{ p1 := startNode, p2 := endNode, dist := nd, width := bufferWidth bd md nd }] ++ acc.2)
      else acc

/-- Search loop using the spec-described neighbor visited test. -/
def dijkstraSpecLoop [Add α] [Sub α] [Mul α] [Div α] [LinearOrder α] (g : Graph α) (md bd : α) :
    ℕ → List (α × Point) → List Point → List (BufferEmission α) → ℕ →
      Option (List (BufferEmission α) × ℕ)
  | fuel, queue, searched, roads, over =>
    match popMin queue with
    | none => some (roads, over)
    | some ((cd, cn), rest) =>
      match fuel with
      | 0 => none
      | fuel' + 1 =>
        if cn ∈ searched then
          dijkstraSpecLoop g md bd fuel' rest searched roads over
        else
          if md < cd then
            dijkstraSpecLoop g md bd fuel' rest (cn :: searched) roads (over + 1)
          else
            match findVertex g cn with
            | none => dijkstraSpecLoop g md bd fuel' rest (cn :: searched) roads over
            | some vid =>
              let pe := processEdgesSpec g md bd cd cn (cn :: searched) (incidentEdges g vid)
              dijkstraSpecLoop g md bd fuel' (rest ++ pe.1) (cn :: searched) (roads ++ pe.2) over

/-- Search modelled from the spec (the neighbor visited test compares
coordinates); used to exhibit the divergence of the code from the spec. -/
def dijkstraSpec [Zero α] [Add α] [Sub α] [Mul α] [Div α] [LinearOrder α]
    (g : Graph α) (startPoints : List Point) (md bd : α) :
    Option (List (BufferEmission α) × ℕ) :=
  dijkstraSpecLoop g md bd (dijkstraFuel g startPoints)
    (startPoints.map fun s => ((0 : α), s)) [] [] 0

/-- Embedding of `calculate_meter`: planar Euclidean distance between two
coordinates (`QgsGeometry.distance`). -/
noncomputable def calculateMeter (startingPoint destination : Point) : ℝ :=
  Real.sqrt ((sqDist startingPoint destination : ℚ) : ℝ)

/-- The value of `max(nearest)` for a nonempty Python list; float infinity
entries are modelled as the top element of `WithTop ℝ`.  On the empty list
Python would raise a ValueError; the callers always pass k of at least 1, so
the empty case is unreachable and is totalised with the top element. -/
noncomputable def pyMax : List (WithTop ℝ) → WithTop ℝ
  | [] => ⊤
  | x :: xs => xs.foldl max x

/-- One iteration of the `nearest_point` scan: if the distance from the
query point to the vertex beats the worst kept distance, overwrite the slot
holding the worst kept distance (`nearest.index(max(nearest))`). -/
noncomputable def nearestStep (point : Point) (st : List (WithTop ℝ) × List Point)
    (nodePoint : Point) : List (WithTop ℝ) × List Point :=
  let distance : WithTop ℝ := ((calculateMeter point nodePoint : ℝ) : WithTop ℝ)
  if distance < pyMax st.1 then
    let maxIdx := st.1.findIdx fun x => decide (x = pyMax st.1)
    (st.1.set maxIdx distance, st.2.set maxIdx nodePoint)
  else st

/-- Embedding of `nearest_point`: initialise k slots with infinity and the
query point itself, scan every graph vertex, and return the kept
coordinates. -/
noncomputable def nearestPoint (nodeGraph : Graph α) (point : Point) (k : ℕ) : List Point :=
  (nodeGraph.verts.foldl (nearestStep point)
    (List.replicate k (⊤ : WithTop ℝ), List.replicate k point)).2

/-- The shapely geometry classes the caller dispatches on when persisting
(the payload stands for the WKT of the geometry). -/
inductive ShapelyGeometry where
  | polygon (wkt : String) : ShapelyGeometry
  | multiPolygon (wkt : String) : ShapelyGeometry
  | geometryCollection (wkt : String) : ShapelyGeometry
deriving DecidableEq, Repr

/-- Embedding of the persistence loop of `create_shelter_area` over the
returned list `merge_searched_road`: a feature (geometry WKT paired with the
attribute list `[str(fid)]`) is added to the layer if and only if
`isinstance(buffered_polygon, Polygon)` holds; any other geometry only
triggers a log message. -/
def persistShelterBuffers (fid : ℕ) (mergeSearchedRoad : List ShapelyGeometry) :
    List (String × String) :=
  mergeSearchedRoad.foldl
    (fun provider geom =>
      match geom with
      | ShapelyGeometry.polygon wkt => provider ++ [(wkt, toString fid)]
      | _ => provider)
    []

/-- Cast of a queue entry from rational to real scalar (coordinates are
rational in both worlds). -/
noncomputable def entryCast (e : ℚ × Point) : ℝ × Point :=
  ((e.1 : ℝ), e.2)

/-- Cast of an edge record from rational to real cost. -/
noncomputable def gedgeCast (e : GEdge ℚ) : GEdge ℝ :=
  { fromV := e.fromV, toV := e.toV, cost := (e.cost : ℝ) }

/-- Cast of a graph from rational to real costs. -/
noncomputable def graphCast (g : Graph ℚ) : Graph ℝ :=
  { verts := g.verts, edges := g.edges.map gedgeCast }

/-- Cast of a buffer emission from rational to real scalars. -/
noncomputable def bufferCast (b : BufferEmission ℚ) : BufferEmission ℝ :=
  { p1 := b.p1, p2 := b.p2, dist := (b.dist : ℝ), width := (b.width : ℝ) }

/-- A buffered line yields a nonempty polygon exactly when the buffer width
is positive and the buffered segment is not degenerate (shapely returns an
empty polygon when a line is buffered by zero or a negative amount, or when
the segment has no extent). -/
def NonEmptyBuffer [Zero α] [LT α] (b : BufferEmission α) : Prop :=
  0 < b.width ∧ b.p1 ≠ b.p2

theorem popMin_eq_none [LinearOrder α] {q : List (α × Point)} :
    popMin q = none ↔ q = [] := by
  cases q with
  | nil => simp [popMin]
  | cons a as =>
    simp only [popMin]
    cases h : popMin as with
    | none => simp
    | some pr =>
      obtain ⟨m, r⟩ := pr
      by_cases hc : entryLE a m <;> simp [hc]

theorem popMin_some [LinearOrder α] :
    ∀ {q : List (α × Point)} {e : α × Point} {rest : List (α × Point)},
      popMin q = some (e, rest) →
        e ∈ q ∧ q.length = rest.length + 1 ∧ ∀ x ∈ rest, x ∈ q := by
  intro q
  induction q with
  | nil => intro e rest h; simp [popMin] at h
  | cons a as ih =>
    intro e rest h
    simp only [popMin] at h
    cases hm : popMin as with
    | none =>
      rw [hm] at h
      have has : as = [] := popMin_eq_none.mp hm
      simp only [Option.some.injEq, Prod.mk.injEq] at h
      obtain ⟨rfl, rfl⟩ := h
      subst has
      refine ⟨by simp, by simp, by simp⟩
    | some pr =>
      obtain ⟨m, r⟩ := pr
      rw [hm] at h
      dsimp only at h
      by_cases hc : entryLE a m
      · rw [if_pos hc] at h
        simp only [Option.some.injEq, Prod.mk.injEq] at h
        obtain ⟨rfl, rfl⟩ := h
        exact ⟨by simp, by simp, fun x hx => by simp [hx]⟩
      · rw [if_neg hc] at h
        simp only [Option.some.injEq, Prod.mk.injEq] at h
        obtain ⟨rfl, rfl⟩ := h
        obtain ⟨hmem, hlen, hsub⟩ := ih hm
        refine ⟨by simp [hmem], by simp [hlen], ?_⟩
        intro x hx
        rcases List.mem_cons.mp hx with rfl | hx
        · simp
        · simp [hsub x hx]

theorem getD_mem_cons : ∀ (l : List Point) (i : ℕ) (d : Point), l.getD i d ∈ d :: l := by
  intro l
  induction l with
  | nil => intro i d; simp
  | cons a t ih =>
    intro i d
    cases i with
    | zero => simp
    | succ n =>
      have h := ih n d
      rw [List.getD_cons_succ]
      rcases List.mem_cons.mp h with h1 | h1
      · exact List.mem_cons.mpr (Or.inl h1)
      · exact List.mem_cons.mpr (Or.inr (List.mem_cons.mpr (Or.inr h1)))

theorem processEdges_facts [Add α] [Sub α] [Mul α] [Div α] [LinearOrder α]
    (g : Graph α) (md bd cd : α) (cn : Point) (searched : List Point) :
    ∀ es : List (GEdge α),
      (processEdges g md bd cd cn searched es).1.length ≤ es.length ∧
      (∀ x ∈ (processEdges g md bd cd cn searched es).1,
        x.1 ≤ md ∧ x.2 ∈ ptDefault :: g.verts) ∧
      (∀ b ∈ (processEdges g md bd cd cn searched es).2,
        b.width = bufferWidth bd md b.dist ∧ b.dist ≤ md) := by
  intro es
  induction es with
  | nil => simp [processEdges]
  | cons edge rest ih =>
    obtain ⟨ih1, ih2, ih3⟩ := ih
    simp only [processEdges]
    by_cases h1 : cn = g.verts.getD edge.fromV ptDefault
    · simp only [if_pos h1]
      by_cases h2 : cd + edge.cost ≤ md
      · simp only [pointXYInTupleSet, and_true, if_pos h2, true_and]
        refine ⟨by simpa using Nat.succ_le_succ ih1, ?_, ?_⟩
        · intro x hx
          rcases List.mem_cons.mp hx with rfl | hx
          · exact ⟨h2, getD_mem_cons _ _ _⟩
          · exact ih2 x hx
        · intro b hb
          rcases List.mem_cons.mp hb with rfl | hb
          · exact ⟨rfl, h2⟩
          · exact ih3 b hb
      · simp only [pointXYInTupleSet, and_true, if_neg h2, true_and]
        exact ⟨Nat.le_succ_of_le ih1, ih2, ih3⟩
    · simp only [if_neg h1]
      by_cases h1b : cn = g.verts.getD edge.toV ptDefault
      · simp only [if_pos h1b]
        by_cases h2 : cd + edge.cost ≤ md
        · simp only [pointXYInTupleSet, and_true, if_pos h2, true_and]
          refine ⟨by simpa using Nat.succ_le_succ ih1, ?_, ?_⟩
          · intro x hx
            rcases List.mem_cons.mp hx with rfl | hx
            · exact ⟨h2, getD_mem_cons _ _ _⟩
            · exact ih2 x hx
          · intro b hb
            rcases List.mem_cons.mp hb with rfl | hb
            · exact ⟨rfl, h2⟩
            · exact ih3 b hb
        · simp only [pointXYInTupleSet, and_true, if_neg h2, true_and]
          exact ⟨Nat.le_succ_of_le ih1, ih2, ih3⟩
      · simp only [if_neg h1b]
        exact ⟨Nat.le_succ_of_le ih1, ih2, ih3⟩

/-- Coordinates that can ever appear in the queue: the seeds (enqueued
initially), the graph vertices (every pushed neighbor is a vertex
coordinate), and the default coordinate used to totalise indexing. -/
def dijkstraCandidates (g : Graph α) (seeds : List Point) : List Point :=
  ptDefault :: (g.verts ++ seeds)

/-- Termination measure for the search loop: queue length plus, for every
candidate coordinate not yet visited, one possible processing step and its
at most `2 * edges` pushes. -/
def dijkstraMeasure (g : Graph α) (seeds : List Point)
    (queue : List (α × Point)) (searched : List Point) : ℕ :=
  queue.length +
    ((dijkstraCandidates g seeds).countP fun p => decide (p ∉ searched)) *
      (1 + 2 * g.edges.length)

theorem countP_le_of_imp (l : List Point) (p q : Point → Bool)
    (h : ∀ a ∈ l, p a = true → q a = true) : l.countP p ≤ l.countP q := by
  induction l with
  | nil => simp
  | cons a t ih =>
    rw [List.countP_cons, List.countP_cons]
    have ht := ih fun a ha => h a (List.mem_cons_of_mem _ ha)
    by_cases hp : p a = true
    · rw [if_pos hp, if_pos (h a (List.mem_cons_self a t) hp)]
      omega
    · rw [if_neg hp]
      split <;> omega

theorem countP_notMem_cons_le (l s : List Point) (cn : Point) :
    (l.countP fun p => decide (p ∉ cn :: s)) ≤ l.countP fun p => decide (p ∉ s) := by
  apply countP_le_of_imp
  intro a _ ha
  simp only [decide_eq_true_eq] at ha ⊢
  intro hmem
  exact ha (List.mem_cons_of_mem _ hmem)

theorem countP_notMem_cons_lt (l s : List Point) (cn : Point)
    (hl : cn ∈ l) (hs : cn ∉ s) :
    (l.countP fun p => decide (p ∉ cn :: s)) + 1 ≤ l.countP fun p => decide (p ∉ s) := by
  induction l with
  | nil => simp at hl
  | cons a t ih =>
    rw [List.countP_cons, List.countP_cons]
    have hle := countP_notMem_cons_le t s cn
    rcases List.mem_cons.mp hl with rfl | hmem
    · have h1 : decide (cn ∉ cn :: s) = false := by simp
      have h2 : decide (cn ∉ s) = true := by simpa using hs
      rw [h1, h2]
      simp only [Bool.false_eq_true, if_false, if_true]
      omega
    · have := ih hmem
      by_cases hp : decide (a ∉ cn :: s) = true
      · have hq : decide (a ∉ s) = true := by
          simp only [decide_eq_true_eq] at hp ⊢
          intro hmem2
          exact hp (List.mem_cons_of_mem _ hmem2)
        rw [hp, hq]
        simp only [if_true]
        omega
      · have hp2 : decide (a ∉ cn :: s) = false := by
          simpa using hp
        rw [hp2]
        simp only [Bool.false_eq_true, if_false]
        split <;> omega

theorem incidentEdges_length_le (g : Graph α) (vid : ℕ) :
    (incidentEdges g vid).length ≤ 2 * g.edges.length := by
  simp only [incidentEdges, List.length_append]
  have h1 := List.length_filter_le (fun e => decide (e.fromV = vid)) g.edges
  have h2 := List.length_filter_le (fun e => decide (e.toV = vid)) g.edges
  omega

theorem dijkstraLoop_isSome [Add α] [Sub α] [Mul α] [Div α] [LinearOrder α]
    (g : Graph α) (seeds : List Point) (md bd : α) :
    ∀ (fuel : ℕ) (queue : List (α × Point)) (searched : List Point)
      (roads : List (BufferEmission α)) (over : ℕ),
      (∀ e ∈ queue, e.2 ∈ dijkstraCandidates g seeds) →
      dijkstraMeasure g seeds queue searched < fuel →
      (dijkstraLoop g md bd fuel queue searched roads over).isSome = true := by
  intro fuel
  induction fuel with
  | zero =>
    intro queue searched roads over _ hlt
    exact absurd hlt (Nat.not_lt_zero _)
  | succ n ih =>
    intro queue searched roads over hinv hlt
    rw [dijkstraLoop]
    cases hp : popMin queue with
    | none => simp
    | some pr =>
      obtain ⟨⟨cd, cn⟩, rest⟩ := pr
      obtain ⟨hm_mem, hm_len, hm_sub⟩ := popMin_some hp
      dsimp only
      by_cases hs : cn ∈ searched
      · rw [if_pos hs]
        apply ih
        · exact fun e he => hinv e (hm_sub e he)
        · unfold dijkstraMeasure at hlt ⊢
          omega
      · rw [if_neg hs]
        have hcle := countP_notMem_cons_le (dijkstraCandidates g seeds) searched cn
        have hclemul :=
          Nat.mul_le_mul_right (k := 1 + 2 * g.edges.length) hcle
        by_cases hb : md < cd
        · rw [if_pos hb]
          apply ih
          · exact fun e he => hinv e (hm_sub e he)
          · unfold dijkstraMeasure at hlt ⊢
            omega
        · rw [if_neg hb]
          cases hf : findVertex g cn with
          | none =>
            apply ih
            · exact fun e he => hinv e (hm_sub e he)
            · unfold dijkstraMeasure at hlt ⊢
              omega
          | some vid =>
            obtain ⟨hp1, hp2, hp3⟩ :=
              processEdges_facts g md bd cd cn (cn :: searched) (incidentEdges g vid)
            apply ih
            · intro e he
              rcases List.mem_append.mp he with he | he
              · exact hinv e (hm_sub e he)
              · have h2 := (hp2 e he).2
                unfold dijkstraCandidates
                rcases List.mem_cons.mp h2 with h3 | h3
                · exact List.mem_cons.mpr (Or.inl h3)
                · exact List.mem_cons.mpr (Or.inr (List.mem_append.mpr (Or.inl h3)))
            · have hcn_cand : cn ∈ dijkstraCandidates g seeds := hinv (cd, cn) hm_mem
              have hstrict :=
                countP_notMem_cons_lt (dijkstraCandidates g seeds) searched cn hcn_cand hs
              have hedge := incidentEdges_length_le g vid
              have hstrictmul :=
                Nat.mul_le_mul_right (k := 1 + 2 * g.edges.length) hstrict
              unfold dijkstraMeasure at hlt ⊢
              rw [List.length_append]
              have hone :
                  ((dijkstraCandidates g seeds).countP fun p => decide (p ∉ cn :: searched)) *
                      (1 + 2 * g.edges.length) + (1 + 2 * g.edges.length) ≤
                    ((dijkstraCandidates g seeds).countP fun p => decide (p ∉ searched)) *
                      (1 + 2 * g.edges.length) := by
                calc ((dijkstraCandidates g seeds).countP fun p => decide (p ∉ cn :: searched)) *
                      (1 + 2 * g.edges.length) + (1 + 2 * g.edges.length)
                    = (((dijkstraCandidates g seeds).countP fun p => decide (p ∉ cn :: searched)) + 1) *
                      (1 + 2 * g.edges.length) := by ring
                  _ ≤ _ := Nat.mul_le_mul_right _ hstrict
              omega

theorem dijkstra_isSome [Zero α] [Add α] [Sub α] [Mul α] [Div α] [LinearOrder α]
    (g : Graph α) (seeds : List Point) (md bd : α) :
    (dijkstra g seeds md bd).isSome = true := by
  unfold dijkstra
  apply dijkstraLoop_isSome
  · intro e he
    simp only [List.mem_map] at he
    obtain ⟨s, hs, rfl⟩ := he
    unfold dijkstraCandidates
    exact List.mem_cons.mpr (Or.inr (List.mem_append.mpr (Or.inr hs)))
  · unfold dijkstraMeasure dijkstraFuel
    rw [List.length_map]
    have hc : ((dijkstraCandidates g seeds).countP fun p => decide (p ∉ ([] : List Point)))
        = (dijkstraCandidates g seeds).length := by
      rw [List.countP_eq_length]
      intro a _
      simp
    rw [hc]
    unfold dijkstraCandidates
    omega

theorem dijkstraLoop_over [Add α] [Sub α] [Mul α] [Div α] [LinearOrder α]
    (g : Graph α) (md bd : α) :
    ∀ (fuel : ℕ) (queue : List (α × Point)) (searched : List Point)
      (roads : List (BufferEmission α)) (over : ℕ) (out : List (BufferEmission α) × ℕ),
      (∀ e ∈ queue, e.1 ≤ md) →
      dijkstraLoop g md bd fuel queue searched roads over = some out →
      out.2 = over := by
  intro fuel
  induction fuel with
  | zero =>
    intro queue searched roads over out hq h
    rw [dijkstraLoop] at h
    cases hp : popMin queue with
    | none =>
      rw [hp] at h
      simp only [Option.some.injEq] at h
      rw [← h]
    | some pr =>
      obtain ⟨⟨cd, cn⟩, rest⟩ := pr
      rw [hp] at h
      simp at h
  | succ n ih =>
    intro queue searched roads over out hq h
    rw [dijkstraLoop] at h
    cases hp : popMin queue with
    | none =>
      rw [hp] at h
      simp only [Option.some.injEq] at h
      rw [← h]
    | some pr =>
      obtain ⟨⟨cd, cn⟩, rest⟩ := pr
      obtain ⟨hm_mem, _, hm_sub⟩ := popMin_some hp
      rw [hp] at h
      dsimp only at h
      have hrest : ∀ e ∈ rest, e.1 ≤ md := fun e he => hq e (hm_sub e he)
      by_cases hs : cn ∈ searched
      · rw [if_pos hs] at h
        exact ih rest searched roads over out hrest h
      · rw [if_neg hs] at h
        have hcd : cd ≤ md := hq (cd, cn) hm_mem
        rw [if_neg (not_lt.mpr hcd)] at h
        cases hf : findVertex g cn with
        | none =>
          rw [hf] at h
          dsimp only at h
          exact ih rest (cn :: searched) roads over out hrest h
        | some vid =>
          rw [hf] at h
          dsimp only at h
          obtain ⟨_, hp2, _⟩ :=
            processEdges_facts g md bd cd cn (cn :: searched) (incidentEdges g vid)
          apply ih _ _ _ _ _ _ h
          intro e he
          rcases List.mem_append.mp he with he | he
          · exact hrest e he
          · exact (hp2 e he).1

theorem dijkstraLoop_roads_of_no_edges [Add α] [Sub α] [Mul α] [Div α] [LinearOrder α]
    (g : Graph α) (md bd : α) (hedges : g.edges = []) :
    ∀ (fuel : ℕ) (queue : List (α × Point)) (searched : List Point)
      (roads : List (BufferEmission α)) (over : ℕ) (out : List (BufferEmission α) × ℕ),
      dijkstraLoop g md bd fuel queue searched roads over = some out →
      out.1 = roads := by
  intro fuel
  induction fuel with
  | zero =>
    intro queue searched roads over out h
    rw [dijkstraLoop] at h
    cases hp : popMin queue with
    | none =>
      rw [hp] at h
      simp only [Option.some.injEq] at h
      rw [← h]
    | some pr =>
      obtain ⟨⟨cd, cn⟩, rest⟩ := pr
      rw [hp] at h
      simp at h
  | succ n ih =>
    intro queue searched roads over out h
    rw [dijkstraLoop] at h
    cases hp : popMin queue with
    | none =>
      rw [hp] at h
      simp only [Option.some.injEq] at h
      rw [← h]
    | some pr =>
      obtain ⟨⟨cd, cn⟩, rest⟩ := pr
      rw [hp] at h
      dsimp only at h
      by_cases hs : cn ∈ searched
      · rw [if_pos hs] at h
        exact ih rest searched roads over out h
      · rw [if_neg hs] at h
        by_cases hb : md < cd
        · rw [if_pos hb] at h
          exact ih rest (cn :: searched) roads (over + 1) out h
        · rw [if_neg hb] at h
          cases hf : findVertex g cn with
          | none =>
            rw [hf] at h
            dsimp only at h
            exact ih rest (cn :: searched) roads over out h
          | some vid =>
            rw [hf] at h
            dsimp only at h
            have hinc : incidentEdges g vid = [] := by
              simp [incidentEdges, hedges]
            rw [hinc] at h
            simp only [processEdges, List.append_nil] at h
            exact ih rest (cn :: searched) roads over out h

theorem dijkstraLoop_width [Add α] [Sub α] [Mul α] [Div α] [LinearOrder α]
    (g : Graph α) (md bd : α) :
    ∀ (fuel : ℕ) (queue : List (α × Point)) (searched : List Point)
      (roads : List (BufferEmission α)) (over : ℕ) (out : List (BufferEmission α) × ℕ),
      (∀ b ∈ roads, b.width = bufferWidth bd md b.dist ∧ b.dist ≤ md) →
      dijkstraLoop g md bd fuel queue searched roads over = some out →
      ∀ b ∈ out.1, b.width = bufferWidth bd md b.dist ∧ b.dist ≤ md := by
  intro fuel
  induction fuel with
  | zero =>
    intro queue searched roads over out hr h
    rw [dijkstraLoop] at h
    cases hp : popMin queue with
    | none =>
      rw [hp] at h
      simp only [Option.some.injEq] at h
      rw [← h]
      exact hr
    | some pr =>
      obtain ⟨⟨cd, cn⟩, rest⟩ := pr
      rw [hp] at h
      simp at h
  | succ n ih =>
    intro queue searched roads over out hr h
    rw [dijkstraLoop] at h
    cases hp : popMin queue with
    | none =>
      rw [hp] at h
      simp only [Option.some.injEq] at h
      rw [← h]
      exact hr
    | some pr =>
      obtain ⟨⟨cd, cn⟩, rest⟩ := pr
      rw [hp] at h
      dsimp only at h
      by_cases hs : cn ∈ searched
      · rw [if_pos hs] at h
        exact ih rest searched roads over out hr h
      · rw [if_neg hs] at h
        by_cases hb : md < cd
        · rw [if_pos hb] at h
          exact ih rest (cn :: searched) roads (over + 1) out hr h
        · rw [if_neg hb] at h
          cases hf : findVertex g cn with
          | none =>
            rw [hf] at h
            dsimp only at h
            exact ih rest (cn :: searched) roads over out hr h
          | some vid =>
            rw [hf] at h
            dsimp only at h
            obtain ⟨_, _, hp3⟩ :=
              processEdges_facts g md bd cd cn (cn :: searched) (incidentEdges g vid)
            apply ih _ _ _ _ _ _ h
            intro b hb2
            rcases List.mem_append.mp hb2 with hb2 | hb2
            · exact hr b hb2
            · exact hp3 b hb2

theorem entryLE_cast (a b : ℚ × Point) :
    entryLE (entryCast a) (entryCast b) ↔ entryLE a b := by
  unfold entryLE entryCast
  simp

theorem popMin_cast : ∀ q : List (ℚ × Point),
    popMin (q.map entryCast) =
      (popMin q).map fun pr => (entryCast pr.1, pr.2.map entryCast) := by
  intro q
  induction q with
  | nil => simp [popMin]
  | cons a as ih =>
    simp only [List.map_cons, popMin, ih]
    cases hm : popMin as with
    | none => simp
    | some pr =>
      obtain ⟨m, rest⟩ := pr
      simp only [Option.map_some']
      by_cases hc : entryLE a m
      · rw [if_pos hc, if_pos ((entryLE_cast a m).mpr hc)]
        simp
      · rw [if_neg hc, if_neg (fun hcc => hc ((entryLE_cast a m).mp hcc))]
        simp

theorem findVertex_cast (g : Graph ℚ) (p : Point) :
    findVertex (graphCast g) p = findVertex g p := rfl

theorem incidentEdges_cast (g : Graph ℚ) (vid : ℕ) :
    incidentEdges (graphCast g) vid = (incidentEdges g vid).map gedgeCast := by
  unfold incidentEdges graphCast gedgeCast
  simp [List.filter_map, Function.comp_def]

theorem bufferWidth_cast (bd md nd : ℚ) :
    ((bufferWidth bd md nd : ℚ) : ℝ) = bufferWidth (bd : ℝ) (md : ℝ) (nd : ℝ) := by
  unfold bufferWidth
  push_cast
  ring

theorem processEdges_cast (g : Graph ℚ) (md bd cd : ℚ) (cn : Point) (searched : List Point) :
    ∀ es : List (GEdge ℚ),
      processEdges (graphCast g) (md : ℝ) (bd : ℝ) (cd : ℝ) cn searched (es.map gedgeCast) =
        ((processEdges g md bd cd cn searched es).1.map entryCast,
         (processEdges g md bd cd cn searched es).2.map bufferCast) := by
  intro es
  induction es with
  | nil => simp [processEdges]
  | cons edge rest ih =>
    have hverts : (graphCast g).verts = g.verts := rfl
    by_cases h1 : cn = g.verts.getD edge.fromV ptDefault
    · subst h1
      by_cases h2 : cd + edge.cost ≤ md
      · have h2r : (cd : ℝ) + (edge.cost : ℝ) ≤ (md : ℝ) := by exact_mod_cast h2
        simp only [processEdges, gedgeCast, hverts, ih, pointXYInTupleSet, List.map_cons,
          eq_self_iff_true, if_true, true_and]
        simp only [if_pos h2r, if_pos h2]
        simp only [entryCast, bufferCast, bufferWidth, List.map_cons, List.map_append,
          List.map_nil, Prod.mk.injEq, List.cons.injEq, BufferEmission.mk.injEq]
        push_cast
        simp
      · have h2r : ¬ ((cd : ℝ) + (edge.cost : ℝ) ≤ (md : ℝ)) := fun hcc =>
          h2 (by exact_mod_cast hcc)
        simp only [processEdges, gedgeCast, hverts, ih, pointXYInTupleSet, List.map_cons,
          eq_self_iff_true, if_true, true_and]
        simp only [if_neg h2r, if_neg h2]
    · by_cases h1b : cn = g.verts.getD edge.toV ptDefault
      · subst h1b
        by_cases h2 : cd + edge.cost ≤ md
        · have h2r : (cd : ℝ) + (edge.cost : ℝ) ≤ (md : ℝ) := by exact_mod_cast h2
          simp only [processEdges, gedgeCast, hverts, ih, pointXYInTupleSet, List.map_cons,
            eq_self_iff_true, if_true, true_and]
          rw [if_neg h1]
          dsimp only
          simp only [if_pos h2r, if_pos h2]
          simp only [entryCast, bufferCast, bufferWidth, List.map_cons, List.map_append,
            List.map_nil, Prod.mk.injEq, List.cons.injEq, BufferEmission.mk.injEq]
          push_cast
          simp
        · have h2r : ¬ ((cd : ℝ) + (edge.cost : ℝ) ≤ (md : ℝ)) := fun hcc =>
            h2 (by exact_mod_cast hcc)
          simp only [processEdges, gedgeCast, hverts, ih, pointXYInTupleSet, List.map_cons,
            eq_self_iff_true, if_true, true_and]
          rw [if_neg h1]
          dsimp only
          simp only [if_neg h2r, if_neg h2]
      · simp only [processEdges, gedgeCast, hverts, ih, pointXYInTupleSet, List.map_cons]
        rw [if_neg h1]
        rw [if_neg h1b]

theorem dijkstraLoop_cast (g : Graph ℚ) (md bd : ℚ) :
    ∀ (fuel : ℕ) (queue : List (ℚ × Point)) (searched : List Point)
      (roads : List (BufferEmission ℚ)) (over : ℕ),
      dijkstraLoop (graphCast g) (md : ℝ) (bd : ℝ) fuel (queue.map entryCast) searched
          (roads.map bufferCast) over =
        (dijkstraLoop g md bd fuel queue searched roads over).map
          fun out => (out.1.map bufferCast, out.2) := by
  intro fuel
  induction fuel with
  | zero =>
    intro queue searched roads over
    rw [dijkstraLoop, dijkstraLoop, popMin_cast]
    cases hp : popMin queue with
    | none => simp
    | some pr =>
      obtain ⟨⟨cd, cn⟩, rest⟩ := pr
      simp [entryCast]
  | succ n ih =>
    intro queue searched roads over
    rw [dijkstraLoop, dijkstraLoop, popMin_cast]
    cases hp : popMin queue with
    | none => simp
    | some pr =>
      obtain ⟨⟨cd, cn⟩, rest⟩ := pr
      simp only [Option.map_some']
      dsimp only [entryCast]
      by_cases hs : cn ∈ searched
      · rw [if_pos hs, if_pos hs]
        rw [ih]
      · rw [if_neg hs, if_neg hs]
        by_cases hb : md < cd
        · have hbr : (md : ℝ) < (cd : ℝ) := by exact_mod_cast hb
          rw [if_pos hbr, if_pos hb]
          rw [ih]
        · have hbr : ¬ ((md : ℝ) < (cd : ℝ)) := fun hcc => hb (by exact_mod_cast hcc)
          rw [if_neg hbr, if_neg hb, findVertex_cast]
          cases hf : findVertex g cn with
          | none =>
            dsimp only
            rw [ih]
          | some vid =>
            dsimp only
            rw [incidentEdges_cast, processEdges_cast]
            have hq : (rest.map entryCast) ++
                ((processEdges g md bd cd cn (cn :: searched) (incidentEdges g vid)).1.map entryCast) =
                (rest ++ (processEdges g md bd cd cn (cn :: searched) (incidentEdges g vid)).1).map
                  entryCast := by
              rw [List.map_append]
            have hr : (roads.map bufferCast) ++
                ((processEdges g md bd cd cn (cn :: searched) (incidentEdges g vid)).2.map bufferCast) =
                (roads ++ (processEdges g md bd cd cn (cn :: searched) (incidentEdges g vid)).2).map
                  bufferCast := by
              rw [List.map_append]
            rw [hq, hr, ih]

theorem dijkstra_cast (g : Graph ℚ) (seeds : List Point) (md bd : ℚ) :
    dijkstra (graphCast g) seeds (md : ℝ) (bd : ℝ) =
      (dijkstra g seeds md bd).map fun out => (out.1.map bufferCast, out.2) := by
  unfold dijkstra
  have hfuel : dijkstraFuel (graphCast g) seeds = dijkstraFuel g seeds := by
    unfold dijkstraFuel graphCast
    simp
  rw [hfuel]
  have hseeds : (seeds.map fun s => ((0 : ℝ), s)) =
      (seeds.map fun s => ((0 : ℚ), s)).map entryCast := by
    rw [List.map_map]
    simp [entryCast, Function.comp_def]
  rw [hseeds]
  have h0 : ([] : List (BufferEmission ℝ)) = ([] : List (BufferEmission ℚ)).map bufferCast := rfl
  rw [h0, dijkstraLoop_cast]

theorem nodup_append_singleton {l : List Point} {a : Point} (h : l.Nodup) (ha : a ∉ l) :
    (l ++ [a]).Nodup := by
  rw [List.nodup_append]
  refine ⟨h, by simp, ?_⟩
  intro x hx
  simp only [List.mem_singleton]
  intro hxa
  exact ha (hxa ▸ hx)

theorem addSegment_verts_nodup (w : Point → Point → α) (g : Graph α) (s : Point × Point)
    (h : g.verts.Nodup) : (addSegment w g s).verts.Nodup := by
  unfold addSegment
  dsimp only
  by_cases h1 : s.1 ∈ g.verts
  · rw [if_pos h1]
    by_cases h2 : s.2 ∈ g.verts
    · rw [if_pos h2]
      exact h
    · rw [if_neg h2]
      exact nodup_append_singleton h h2
  · rw [if_neg h1]
    have hn1 : (g.verts ++ [s.1]).Nodup := nodup_append_singleton h h1
    by_cases h2 : s.2 ∈ g.verts ++ [s.1]
    · rw [if_pos h2]
      exact hn1
    · rw [if_neg h2]
      exact nodup_append_singleton hn1 h2

theorem addSegment_verts_mono (w : Point → Point → α) (g : Graph α) (s : Point × Point) :
    ∀ p ∈ g.verts, p ∈ (addSegment w g s).verts := by
  intro p hp
  unfold addSegment
  dsimp only
  by_cases h1 : s.1 ∈ g.verts
  · rw [if_pos h1]
    split
    · exact hp
    · exact List.mem_append.mpr (Or.inl hp)
  · rw [if_neg h1]
    split
    · exact List.mem_append.mpr (Or.inl hp)
    · exact List.mem_append.mpr (Or.inl (List.mem_append.mpr (Or.inl hp)))

theorem addSegment_verts_endpoints (w : Point → Point → α) (g : Graph α) (s : Point × Point) :
    s.1 ∈ (addSegment w g s).verts ∧ s.2 ∈ (addSegment w g s).verts := by
  unfold addSegment
  dsimp only
  constructor
  · by_cases h1 : s.1 ∈ g.verts
    · rw [if_pos h1]
      split <;> simp [h1]
    · rw [if_neg h1]
      split <;> simp
  · split <;> split
    · assumption
    · simp
    · assumption
    · simp

theorem addSegment_verts_sub (w : Point → Point → α) (g : Graph α) (s : Point × Point) :
    ∀ p ∈ (addSegment w g s).verts, p ∈ g.verts ∨ p = s.1 ∨ p = s.2 := by
  intro p hp
  unfold addSegment at hp
  dsimp only at hp
  by_cases h1 : s.1 ∈ g.verts
  · rw [if_pos h1] at hp
    by_cases h2 : s.2 ∈ g.verts
    · rw [if_pos h2] at hp
      exact Or.inl hp
    · rw [if_neg h2] at hp
      rcases List.mem_append.mp hp with hp | hp
      · exact Or.inl hp
      · simp only [List.mem_singleton] at hp
        exact Or.inr (Or.inr hp)
  · rw [if_neg h1] at hp
    by_cases h2 : s.2 ∈ g.verts ++ [s.1]
    · rw [if_pos h2] at hp
      rcases List.mem_append.mp hp with hp | hp
      · exact Or.inl hp
      · simp only [List.mem_singleton] at hp
        exact Or.inr (Or.inl hp)
    · rw [if_neg h2] at hp
      rcases List.mem_append.mp hp with hp | hp
      · rcases List.mem_append.mp hp with hp | hp
        · exact Or.inl hp
        · simp only [List.mem_singleton] at hp
          exact Or.inr (Or.inl hp)
      · simp only [List.mem_singleton] at hp
        exact Or.inr (Or.inr hp)

theorem foldl_addSegment_facts (w : Point → Point → α) :
    ∀ (segs : List (Point × Point)) (g : Graph α),
      g.verts.Nodup →
      (segs.foldl (addSegment w) g).verts.Nodup ∧
      (∀ p ∈ g.verts, p ∈ (segs.foldl (addSegment w) g).verts) ∧
      (∀ s ∈ segs,
        s.1 ∈ (segs.foldl (addSegment w) g).verts ∧
        s.2 ∈ (segs.foldl (addSegment w) g).verts) ∧
      (∀ p ∈ (segs.foldl (addSegment w) g).verts,
        p ∈ g.verts ∨ ∃ s ∈ segs, p = s.1 ∨ p = s.2) := by
  intro segs
  induction segs with
  | nil =>
    intro g hg
    exact ⟨hg, fun p hp => hp, by simp, fun p hp => Or.inl hp⟩
  | cons s rest ih =>
    intro g hg
    rw [List.foldl_cons]
    obtain ⟨ihn, ihmono, ihend, ihsub⟩ := ih (addSegment w g s) (addSegment_verts_nodup w g s hg)
    refine ⟨ihn, ?_, ?_, ?_⟩
    · intro p hp
      exact ihmono p (addSegment_verts_mono w g s p hp)
    · intro t ht
      rcases List.mem_cons.mp ht with rfl | ht
      · obtain ⟨he1, he2⟩ := addSegment_verts_endpoints w g t
        exact ⟨ihmono t.1 he1, ihmono t.2 he2⟩
      · exact ihend t ht
    · intro p hp
      rcases ihsub p hp with hp2 | ⟨t, ht, hpt⟩
      · rcases addSegment_verts_sub w g s p hp2 with hg2 | hs2
        · exact Or.inl hg2
        · exact Or.inr ⟨s, List.mem_cons_self s rest, hs2⟩
      · exact Or.inr ⟨t, List.mem_cons_of_mem _ ht, hpt⟩

theorem foldl_addSegment_cast (wQ : Point → Point → ℚ) :
    ∀ (segs : List (Point × Point)) (gQ : Graph ℚ),
      (∀ s ∈ segs, segLength s.1 s.2 = ((wQ s.1 s.2 : ℚ) : ℝ)) →
      segs.foldl (addSegment segLength) (graphCast gQ) =
        graphCast (segs.foldl (addSegment wQ) gQ) := by
  intro segs
  induction segs with
  | nil => intro gQ _; rfl
  | cons s rest ih =>
    intro gQ h
    rw [List.foldl_cons, List.foldl_cons]
    have hstep : addSegment segLength (graphCast gQ) s = graphCast (addSegment wQ gQ s) := by
      unfold addSegment graphCast
      dsimp only
      rw [h s (List.mem_cons_self s rest)]
      simp [gedgeCast, List.map_append]
    rw [hstep]
    exact ih _ fun t ht => h t (List.mem_cons_of_mem _ ht)

theorem extractRoadNodes_eq_cast (roads : List RoadGeometry) (wQ : Point → Point → ℚ)
    (h : ∀ s ∈ roadSegments roads, segLength s.1 s.2 = ((wQ s.1 s.2 : ℚ) : ℝ)) :
    extractRoadNodes roads = graphCast (buildGraph wQ roads) := by
  unfold extractRoadNodes buildGraph
  have hinit : ({ verts := [], edges := [] } : Graph ℝ) =
      graphCast { verts := [], edges := [] } := rfl
  rw [hinit, foldl_addSegment_cast wQ _ _ h]

theorem segLength_horiz (x1 x2 y : ℚ) (h : x1 ≤ x2) :
    segLength (x1, y) (x2, y) = ((x2 - x1 : ℚ) : ℝ) := by
  unfold segLength sqDist
  dsimp only
  have h1 : ((x2 - x1) ^ 2 + (y - y) ^ 2 : ℚ) = (x2 - x1) ^ 2 := by ring
  rw [h1]
  have h2 : (((x2 - x1) ^ 2 : ℚ) : ℝ) = ((x2 - x1 : ℚ) : ℝ) ^ 2 := by push_cast; ring
  rw [h2]
  exact Real.sqrt_sq (by exact_mod_cast sub_nonneg.mpr h)

/-- A small concrete graph used by several witnesses: one road segment from
(0,0) to (1,0) with cost 1. -/
def g1Q : Graph ℚ :=
  { verts := [(0, 0), (1, 0)], edges := [{ fromV := 0, toV := 1, cost := 1 }] }

/-- C8: building a graph from a single 2-point polyline from (0,0) to (3,4)
creates exactly one edge, and its weight equals 5.0, the Euclidean length of
the segment. -/
theorem claim8_weight_correctness :
    (extractRoadNodes [RoadGeometry.lineString [(0, 0), (3, 4)]]).edges =
      [{ fromV := 0, toV := 1, cost := (5 : ℝ) }] := by
  have hstruct : extractRoadNodes [RoadGeometry.lineString [(0, 0), (3, 4)]] =
      { verts := [(0, 0), (3, 4)],
        edges := [{ fromV := 0, toV := 1, cost := segLength (0, 0) (3, 4) }] } := by
    with_unfolding_all rfl
  have hseg : segLength ((0 : ℚ), (0 : ℚ)) ((3 : ℚ), (4 : ℚ)) = (5 : ℝ) := by
    unfold segLength sqDist
    dsimp only
    have h25 : (((3 : ℚ) - 0) ^ 2 + ((4 : ℚ) - 0) ^ 2 : ℚ) = 25 := by norm_num
    rw [h25]
    have hc : (((25 : ℚ)) : ℝ) = (5 : ℝ) ^ 2 := by norm_num
    rw [hc]
    exact Real.sqrt_sq (by norm_num)
  rw [hstruct, hseg]

theorem count_beq_bridge (p : Point) (l : List Point) :
    @List.count Point instBEqProd p l = @List.count Point instBEqOfDecidableEq p l := by
  simp only [List.count]
  apply List.countP_congr
  intro a _
  simp [instBEqOfDecidableEq]

/-- C7: for every coordinate occurring as a segment endpoint anywhere in the
input features, exactly one vertex is created at that coordinate (vertex
identity is exact coordinate equality in the embedding; the underlying
library point comparison additionally tolerates differences below 1e-8,
which is finer than the exact-rational granularity modelled here). -/
theorem claim7_vertex_dedup (roads : List RoadGeometry) (p : Point)
    (hp : p ∈ segmentEndpoints roads) :
    (extractRoadNodes roads).verts.count p = 1 := by
  obtain ⟨hnodup, _, hend, _⟩ :=
    foldl_addSegment_facts segLength (roadSegments roads)
      { verts := [], edges := [] } (by simp)
  unfold segmentEndpoints at hp
  rw [List.mem_flatMap] at hp
  obtain ⟨s, hs, hps⟩ := hp
  have hmem : p ∈ (extractRoadNodes roads).verts := by
    obtain ⟨h1, h2⟩ := hend s hs
    unfold extractRoadNodes buildGraph
    simp only [List.mem_cons, List.mem_singleton, List.not_mem_nil, or_false] at hps
    rcases hps with rfl | rfl
    · exact h1
    · exact h2
  rw [count_beq_bridge]
  exact List.count_eq_one_of_mem hnodup hmem

/-- Two polylines sharing the exact endpoint (1,1), used as the witness
input for the vertex dedup claim. -/
def demoRoads : List RoadGeometry :=
  [RoadGeometry.lineString [(0, 0), (1, 1)], RoadGeometry.lineString [(1, 1), (2, 0)]]

/-- Witness for C7: the shared endpoint (1,1) of the two demo polylines has
exactly one vertex. -/
theorem claim7_witness :
    ((1, 1) : Point) ∈ segmentEndpoints demoRoads ∧
    (extractRoadNodes demoRoads).verts.count ((1, 1) : Point) = 1 :=
  ⟨by with_unfolding_all decide, claim7_vertex_dedup demoRoads (1, 1) (by with_unfolding_all decide)⟩

/-- C5: for every finite graph with positive edge weights, every seed list
and every budget, the search terminates (the loop, run with the fuel bound,
empties its queue and returns a result; in fact no positivity is needed
because the visited-set check at pop time bounds the number of processed
entries). -/
theorem claim5_termination [Zero α] [Add α] [Sub α] [Mul α] [Div α] [LinearOrder α]
    (g : Graph α) (seeds : List Point) (md bd : α)
    (hpos : ∀ e ∈ g.edges, 0 < e.cost) :
    (dijkstra g seeds md bd).isSome = true :=
  dijkstra_isSome g seeds md bd

/-- Witness for C5 on a concrete one-edge graph with positive weight. -/
theorem claim5_witness :
    (∀ e ∈ g1Q.edges, 0 < e.cost) ∧ (dijkstra g1Q [(0, 0)] 10 10).isSome = true :=
  ⟨by with_unfolding_all decide,
   claim5_termination g1Q [(0, 0)] 10 10 (by with_unfolding_all decide)⟩

/-- C4: the area computation never raises (the search always returns a
result), and on a graph with zero edges no buffer is collected, so the
returned union is the union of an empty collection, the empty geometry. -/
theorem claim4_empty_result [Zero α] [Add α] [Sub α] [Mul α] [Div α] [LinearOrder α]
    (g : Graph α) (seeds : List Point) (md bd : α) :
    (dijkstra g seeds md bd).isSome = true ∧
    (g.edges = [] → ∃ n : ℕ, dijkstra g seeds md bd = some ([], n)) := by
  refine ⟨dijkstra_isSome g seeds md bd, ?_⟩
  intro hedges
  obtain ⟨out, hout⟩ := Option.isSome_iff_exists.mp (dijkstra_isSome g seeds md bd)
  obtain ⟨l, n⟩ := out
  have hl : l = [] := by
    unfold dijkstra at hout
    exact dijkstraLoop_roads_of_no_edges g md bd hedges _ _ _ _ _ _ hout
  subst hl
  exact ⟨n, hout⟩

/-- Witness for C4 on a concrete zero-edge graph with a seed that matches no
vertex. -/
theorem claim4_witness :
    ∃ n : ℕ,
      dijkstra ({ verts := [(0, 0)], edges := [] } : Graph ℚ) [(5, 5)] 10 2 = some ([], n) :=
  (claim4_empty_result ({ verts := [(0, 0)], edges := [] } : Graph ℚ) [(5, 5)] 10 2).2 rfl

/-- C10: with a nonnegative budget, every popped queue entry has cumulative
distance within the budget (seeds enter at distance 0 and pushes are guarded
by the budget test), so the over-budget discard branch is never executed:
its execution counter stays 0. -/
theorem claim10_no_overbudget_pops [Zero α] [Add α] [Sub α] [Mul α] [Div α] [LinearOrder α]
    (g : Graph α) (seeds : List Point) (md bd : α) (hmd : 0 ≤ md)
    (out : List (BufferEmission α) × ℕ) (hout : dijkstra g seeds md bd = some out) :
    out.2 = 0 := by
  unfold dijkstra at hout
  refine dijkstraLoop_over g md bd _ _ _ _ _ out ?_ hout
  intro e he
  simp only [List.mem_map] at he
  obtain ⟨s, _, rfl⟩ := he
  exact hmd

/-- Witness for C10 on the one-edge graph. -/
theorem claim10_witness :
    0 ≤ (10 : ℚ) ∧
    (([⟨(0, 0), (1, 0), 1, 9⟩, ⟨(0, 0), (1, 0), 2, 8⟩], 0) :
      List (BufferEmission ℚ) × ℕ).2 = 0 :=
  ⟨by norm_num,
   claim10_no_overbudget_pops g1Q [(0, 0)] 10 10 (by norm_num) _
     (by with_unfolding_all decide)⟩

/-- C6: within one invocation of the search with positive budget and
nonnegative base buffer distance, emitted buffer widths decay: a buffer
computed at a smaller tentative cumulative distance has a width at least as
large as one computed at a larger tentative distance. -/
theorem claim6_buffer_width_decay (g : Graph ℝ) (seeds : List Point) (md bd : ℝ)
    (hmd : 0 < md) (hbd : 0 ≤ bd) (out : List (BufferEmission ℝ) × ℕ)
    (hout : dijkstra g seeds md bd = some out)
    (b1 b2 : BufferEmission ℝ) (h1 : b1 ∈ out.1) (h2 : b2 ∈ out.1)
    (hlt : b1.dist < b2.dist) (hle : b2.dist ≤ md) :
    b2.width ≤ b1.width := by
  unfold dijkstra at hout
  have hw := dijkstraLoop_width g md bd (dijkstraFuel g seeds)
    (seeds.map fun s => ((0 : ℝ), s)) [] [] 0 out (by simp) hout
  obtain ⟨hw1, _⟩ := hw b1 h1
  obtain ⟨hw2, _⟩ := hw b2 h2
  rw [hw1, hw2]
  unfold bufferWidth
  have hnum : bd * (md - b2.dist) ≤ bd * (md - b1.dist) :=
    mul_le_mul_of_nonneg_left (by linarith) hbd
  exact (div_le_div_iff_of_pos_right hmd).mpr hnum

/-- Witness for C6: on the one-edge graph run over the reals, the buffer
emitted at tentative distance 2 is no wider than the one emitted at
tentative distance 1. -/
theorem claim6_witness :
    (bufferCast ⟨(0, 0), (1, 0), 2, 8⟩).width ≤ (bufferCast ⟨(0, 0), (1, 0), 1, 9⟩).width := by
  have hq : dijkstra g1Q [(0, 0)] (10 : ℚ) (10 : ℚ) =
      some ([⟨(0, 0), (1, 0), 1, 9⟩, ⟨(0, 0), (1, 0), 2, 8⟩], 0) := by
    with_unfolding_all decide
  have hr := dijkstra_cast g1Q [(0, 0)] 10 10
  rw [hq] at hr
  simp only [Option.map_some'] at hr
  refine claim6_buffer_width_decay (graphCast g1Q) [(0, 0)] ((10 : ℚ) : ℝ) ((10 : ℚ) : ℝ)
    (by norm_num) (by norm_num) _ hr
    (bufferCast ⟨(0, 0), (1, 0), 1, 9⟩) (bufferCast ⟨(0, 0), (1, 0), 2, 8⟩)
    (by simp) (by simp) ?_ ?_
  · unfold bufferCast
    norm_num
  · unfold bufferCast
    norm_num

theorem countP_set_ge (p : Point → Bool) :
    ∀ (l : List Point) (i : ℕ) (a : Point), l.countP p ≤ (l.set i a).countP p + 1 := by
  intro l
  induction l with
  | nil => intro i a; simp
  | cons h t ih =>
    intro i a
    cases i with
    | zero =>
      rw [List.set_cons_zero, List.countP_cons, List.countP_cons]
      split <;> split <;> omega
    | succ n =>
      rw [List.set_cons_succ, List.countP_cons, List.countP_cons]
      have := ih n a
      split <;> omega

theorem nearestFold_facts (point : Point) :
    ∀ (vs : List Point) (st : List (WithTop ℝ) × List Point),
      ((vs.foldl (nearestStep point) st).2.length = st.2.length) ∧
      (∀ c ∈ (vs.foldl (nearestStep point) st).2, c ∈ st.2 ∨ c ∈ vs) ∧
      st.2.countP (fun c => decide (c = point)) ≤
        (vs.foldl (nearestStep point) st).2.countP (fun c => decide (c = point)) + vs.length := by
  intro vs
  induction vs with
  | nil =>
    intro st
    exact ⟨rfl, fun c hc => Or.inl hc, by simp⟩
  | cons v t ih =>
    intro st
    rw [List.foldl_cons]
    obtain ⟨ih1, ih2, ih3⟩ := ih (nearestStep point st v)
    have hstep2 : (nearestStep point st v).2.length = st.2.length := by
      unfold nearestStep
      dsimp only
      split
      · exact List.length_set _ _ _
      · rfl
    have hstepmem : ∀ c ∈ (nearestStep point st v).2, c ∈ st.2 ∨ c = v := by
      unfold nearestStep
      dsimp only
      split
      · intro c hc
        exact List.mem_or_eq_of_mem_set hc
      · intro c hc
        exact Or.inl hc
    have hstepcount : st.2.countP (fun c => decide (c = point)) ≤
        (nearestStep point st v).2.countP (fun c => decide (c = point)) + 1 := by
      unfold nearestStep
      dsimp only
      split
      · exact countP_set_ge _ _ _ _
      · omega
    refine ⟨ih1.trans hstep2, ?_, ?_⟩
    · intro c hc
      rcases ih2 c hc with hc2 | hc2
      · rcases hstepmem c hc2 with hc3 | hc3
        · exact Or.inl hc3
        · exact Or.inr (List.mem_cons.mpr (Or.inl hc3))
      · exact Or.inr (List.mem_cons.mpr (Or.inr hc2))
    · calc st.2.countP (fun c => decide (c = point)) ≤
          (nearestStep point st v).2.countP (fun c => decide (c = point)) + 1 := hstepcount
        _ ≤ ((t.foldl (nearestStep point) (nearestStep point st v)).2.countP
              (fun c => decide (c = point)) + t.length) + 1 := by omega
        _ = _ := by simp [List.length_cons]; omega

/-- C9: the nearest-node lookup returns exactly k coordinates; every
returned coordinate is either a graph vertex or the query point itself, and
at least k minus the vertex count of the returned entries equal the query
point (the slots are initialised with the query point and each scanned
vertex overwrites at most one slot). -/
theorem claim9_seed_degradation (g : Graph α) (point : Point) (k : ℕ) (hk : 1 ≤ k) :
    (nearestPoint g point k).length = k ∧
    (∀ c ∈ nearestPoint g point k, c ∈ g.verts ∨ c = point) ∧
    k - g.verts.length ≤ (nearestPoint g point k).countP fun c => decide (c = point) := by
  unfold nearestPoint
  obtain ⟨h1, h2, h3⟩ :=
    nearestFold_facts point g.verts (List.replicate k (⊤ : WithTop ℝ), List.replicate k point)
  refine ⟨?_, ?_, ?_⟩
  · rw [h1]
    exact List.length_replicate k point
  · intro c hc
    rcases h2 c hc with hc2 | hc2
    · exact Or.inr (List.eq_of_mem_replicate hc2)
    · exact Or.inl hc2
  · have hinit : (List.replicate k point).countP (fun c => decide (c = point)) = k := by
      rw [List.countP_replicate]
      simp
    rw [hinit] at h3  -- hmm non-ascii name
    omega

/-- One-vertex graph used as the witness input for the seed degradation
claim. -/
def oneVertexGraph : Graph ℚ := { verts := [(3, 4)], edges := [] }

/-- Witness for C9: on a graph with exactly 1 vertex and k = 3, the lookup
returns 3 coordinates, each a vertex or the query point, and at least 2 of
them equal the query point. -/
theorem claim9_witness :
    1 ≤ 3 ∧
    ((nearestPoint oneVertexGraph (0, 0) 3).length = 3 ∧
     (∀ c ∈ nearestPoint oneVertexGraph (0, 0) 3, c ∈ oneVertexGraph.verts ∨ c = (0, 0)) ∧
     3 - oneVertexGraph.verts.length ≤
       (nearestPoint oneVertexGraph (0, 0) 3).countP fun c => decide (c = (0, 0))) :=
  ⟨by norm_num, claim9_seed_degradation oneVertexGraph (0, 0) 3 (by norm_num)⟩

/-- C2, evaluation at the failing input: on the one-edge graph from (0,0) to
(1,0) with weight 1, seed (0,0) and budget 10, the code pushes and emits a
buffer for the traversal back to the already-visited seed (second emission,
tentative distance 2), because the visited test compares a QgsPointXY
against a set of coordinate tuples and never fires; the behavior the spec
describes (dijkstraSpec, with a working visited test) emits only one
buffer. -/
theorem claim2_visited_neighbor_emission :
    dijkstra g1Q [(0, 0)] (10 : ℚ) 10 =
      some ([⟨(0, 0), (1, 0), 1, 9⟩, ⟨(0, 0), (1, 0), 2, 8⟩], 0) ∧
    dijkstraSpec g1Q [(0, 0)] (10 : ℚ) 10 =
      some ([⟨(0, 0), (1, 0), 1, 9⟩], 0) := by
  constructor
  · with_unfolding_all decide
  · with_unfolding_all decide

/-- C3, counterexample: the caller persists a single-part Polygon union
together with the stringified facility id, but a multi-part (MultiPolygon)
union is not persisted at all — the isinstance check only accepts Polygon,
so the claim that a multi-part union is persisted the same way as a
single-part one is false. -/
theorem claim3_counterexample :
    persistShelterBuffers 7 [ShapelyGeometry.polygon ("P1")] = [(("P1"), ("7"))] ∧
    persistShelterBuffers 7 [ShapelyGeometry.multiPolygon ("P1")] = [] := by
  constructor
  · rfl
  · rfl

/-- C3, amended: for every facility id and every geometry list handed back
by the search, exactly the geometries that are single-part shapely Polygons
are persisted, each together with the stringified facility id; MultiPolygon
and GeometryCollection geometries are dropped (only logged). -/
theorem claim3_amended (fid : ℕ) (geoms : List ShapelyGeometry) :
    persistShelterBuffers fid geoms =
      geoms.filterMap fun geom =>
        match geom with
        | ShapelyGeometry.polygon wkt => some (wkt, toString fid)
        | _ => none := by
  have haux : ∀ (gs : List ShapelyGeometry) (acc : List (String × String)),
      gs.foldl
        (fun provider geom =>
          match geom with
          | ShapelyGeometry.polygon wkt => provider ++ [(wkt, toString fid)]
          | _ => provider)
        acc =
      acc ++ gs.filterMap (fun geom =>
        match geom with
        | ShapelyGeometry.polygon wkt => some (wkt, toString fid)
        | _ => none) := by
    intro gs
    induction gs with
    | nil => intro acc; simp
    | cons geomHead t ih =>
      intro acc
      cases geomHead <;> simp [List.foldl_cons, List.filterMap_cons, ih]
  unfold persistShelterBuffers
  simpa using haux geoms []

/-- The single straight 1000 m road of the end-to-end scenario, given as one
2-point polyline. -/
def roads1 : List RoadGeometry := [RoadGeometry.lineString [(0, 0), (1000, 0)]]

/-- The same road split into 10 consecutive 100 m segments (vertices every
100 m). -/
def roads10 : List RoadGeometry :=
  [RoadGeometry.lineString
    [(0, 0), (100, 0), (200, 0), (300, 0), (400, 0), (500, 0),
     (600, 0), (700, 0), (800, 0), (900, 0), (1000, 0)]]

/-- Rational weight function agreeing with the Euclidean length on
left-to-right horizontal segments. -/
def wHoriz : Point → Point → ℚ := fun p q => q.1 - p.1

theorem roads1_seg : ∀ s ∈ roadSegments roads1,
    segLength s.1 s.2 = ((wHoriz s.1 s.2 : ℚ) : ℝ) := by
  have hsegs : roadSegments roads1 = [((0, 0), (1000, 0))] := by with_unfolding_all rfl
  rw [hsegs]
  intro s hs
  simp only [List.mem_singleton] at hs
  subst hs
  unfold wHoriz
  exact segLength_horiz 0 1000 0 (by norm_num)

theorem roads10_seg : ∀ s ∈ roadSegments roads10,
    segLength s.1 s.2 = ((wHoriz s.1 s.2 : ℚ) : ℝ) := by
  have hsegs : roadSegments roads10 =
      [((0, 0), (100, 0)), ((100, 0), (200, 0)), ((200, 0), (300, 0)),
       ((300, 0), (400, 0)), ((400, 0), (500, 0)), ((500, 0), (600, 0)),
       ((600, 0), (700, 0)), ((700, 0), (800, 0)), ((800, 0), (900, 0)),
       ((900, 0), (1000, 0))] := by
    with_unfolding_all rfl
  rw [hsegs]
  intro s hs
  simp only [List.mem_cons, List.not_mem_nil, or_false] at hs
  unfold wHoriz
  rcases hs with rfl | rfl | rfl | rfl | rfl | rfl | rfl | rfl | rfl | rfl
  · exact segLength_horiz 0 100 0 (by norm_num)
  · exact segLength_horiz 100 200 0 (by norm_num)
  · exact segLength_horiz 200 300 0 (by norm_num)
  · exact segLength_horiz 300 400 0 (by norm_num)
  · exact segLength_horiz 400 500 0 (by norm_num)
  · exact segLength_horiz 500 600 0 (by norm_num)
  · exact segLength_horiz 600 700 0 (by norm_num)
  · exact segLength_horiz 700 800 0 (by norm_num)
  · exact segLength_horiz 800 900 0 (by norm_num)
  · exact segLength_horiz 900 1000 0 (by norm_num)

/-- The nine buffer emissions of the 10-segment scenario, computed at the
rationals (order: processing order of the search; each interior segment is
buffered a second time by the traversal back toward its already-visited
endpoint, and the two emissions at tentative distance 500 have width 0). -/
def expected10 : List (BufferEmission ℚ) :=
  [⟨(0, 0), (100, 0), 100, 160⟩,
   ⟨(100, 0), (200, 0), 200, 120⟩, ⟨(0, 0), (100, 0), 200, 120⟩,
   ⟨(200, 0), (300, 0), 300, 80⟩, ⟨(100, 0), (200, 0), 300, 80⟩,
   ⟨(300, 0), (400, 0), 400, 40⟩, ⟨(200, 0), (300, 0), 400, 40⟩,
   ⟨(400, 0), (500, 0), 500, 0⟩, ⟨(300, 0), (400, 0), 500, 0⟩]

theorem dijkstra1Q :
    dijkstra (buildGraph wHoriz roads1) [(0, 0)] (500 : ℚ) 200 = some ([], 0) := by
  with_unfolding_all decide

theorem dijkstra10Q :
    dijkstra (buildGraph wHoriz roads10) [(0, 0)] (500 : ℚ) 200 = some (expected10, 0) := by
  with_unfolding_all decide

theorem scenario1_eval :
    dijkstra (extractRoadNodes roads1) [(0, 0)] (500 : ℝ) (200 : ℝ) = some ([], 0) := by
  have h500 : ((500 : ℚ) : ℝ) = (500 : ℝ) := by norm_num
  have h200 : ((200 : ℚ) : ℝ) = (200 : ℝ) := by norm_num
  rw [extractRoadNodes_eq_cast roads1 wHoriz roads1_seg, ← h500, ← h200, dijkstra_cast,
    dijkstra1Q]
  rfl

theorem scenario10_eval :
    dijkstra (extractRoadNodes roads10) [(0, 0)] (500 : ℝ) (200 : ℝ) =
      some (expected10.map bufferCast, 0) := by
  have h500 : ((500 : ℚ) : ℝ) = (500 : ℝ) := by norm_num
  have h200 : ((200 : ℚ) : ℝ) = (200 : ℝ) := by norm_num
  rw [extractRoadNodes_eq_cast roads10 wHoriz roads10_seg, ← h500, ← h200, dijkstra_cast,
    dijkstra10Q]
  rfl

instance nonEmptyBufferDec [Zero α] [LT α] [h : ∀ a b : α, Decidable (a < b)]
    (b : BufferEmission α) : Decidable (NonEmptyBuffer b) :=
  decidable_of_iff (0 < b.width ∧ b.p1 ≠ b.p2) Iff.rfl

/-- The four distinct positively-buffered segments of the 10-segment
scenario, in road order: a connected chain covering the road from x = 0 to
x = 400. -/
def segChain : List (Point × Point) :=
  [((0, 0), (100, 0)), ((100, 0), (200, 0)), ((200, 0), (300, 0)), ((300, 0), (400, 0))]

/-- Two segments share an endpoint coordinate (so their buffers, which
contain their segments, overlap whenever both widths are positive). -/
def sharesEndpoint (s t : Point × Point) : Prop :=
  s.1 = t.1 ∨ s.1 = t.2 ∨ s.2 = t.1 ∨ s.2 = t.2

instance sharesEndpointDec (s t : Point × Point) : Decidable (sharesEndpoint s t) :=
  decidable_of_iff (s.1 = t.1 ∨ s.1 = t.2 ∨ s.2 = t.1 ∨ s.2 = t.2) Iff.rfl

/-- Consecutive segments of the list share an endpoint. -/
def chained : List (Point × Point) → Prop
  | s :: t :: rest => sharesEndpoint s t ∧ chained (t :: rest)
  | _ => True

instance chainedDec : (l : List (Point × Point)) → Decidable (chained l)
  | [] => isTrue True.intro
  | [_] => isTrue True.intro
  | s :: t :: rest => @instDecidableAnd _ _ (sharesEndpointDec s t) (chainedDec (t :: rest))

/-- The buffered line of `b` (round caps) lies inside the axis-aligned
square of half-side r centred at c: both segment endpoints are within
r minus the buffer width of c in each coordinate. -/
def bufferWithinBox (c : Point) (r : ℚ) (b : BufferEmission ℚ) : Prop :=
  |b.p1.1 - c.1| + b.width ≤ r ∧ |b.p1.2 - c.2| + b.width ≤ r ∧
  |b.p2.1 - c.1| + b.width ≤ r ∧ |b.p2.2 - c.2| + b.width ≤ r

instance bufferWithinBoxDec (c : Point) (r : ℚ) (b : BufferEmission ℚ) :
    Decidable (bufferWithinBox c r b) :=
  decidable_of_iff
    (|b.p1.1 - c.1| + b.width ≤ r ∧ |b.p1.2 - c.2| + b.width ≤ r ∧
     |b.p2.1 - c.1| + b.width ≤ r ∧ |b.p2.2 - c.2| + b.width ≤ r) Iff.rfl

/-- The geometric facts of the 10-segment scenario, stated on the rational
emission list: 7 of the 9 emitted buffers are non-empty, at tentative
cumulative distances 100, 200, 200, 300, 300, 400, 400; every non-empty
buffer is a buffer of one of the four chained segments covering x in
[0, 400], every one of those segments is covered by a non-empty buffer
(hence the union of the emitted buffers is one single non-empty connected
polygon), and every emitted buffer lies within the square of half-side
700 = 500 + 200 around the seed. -/
def scenario10Facts : Prop :=
  (expected10.countP fun b => decide (NonEmptyBuffer b)) = 7 ∧
  ((expected10.filter fun b => decide (NonEmptyBuffer b)).map fun b => b.dist) =
    [100, 200, 200, 300, 300, 400, 400] ∧
  (∀ b ∈ expected10, NonEmptyBuffer b → (b.p1, b.p2) ∈ segChain) ∧
  (∀ s ∈ segChain, ∃ b ∈ expected10, NonEmptyBuffer b ∧ (b.p1, b.p2) = s) ∧
  chained segChain ∧
  (∀ b ∈ expected10, bufferWithinBox (0, 0) 700 b)

theorem nonEmptyBuffer_cast (b : BufferEmission ℚ) :
    NonEmptyBuffer (bufferCast b) ↔ NonEmptyBuffer b := by
  unfold NonEmptyBuffer bufferCast
  simp

/-- C1, amended: with the road given as a single 2-point polyline the search
emits no buffer and returns the empty union; with the road split into 10
segments of 100 m the search emits the nine buffers of `expected10`
(transported to the reals), of which exactly 7 are non-empty, at tentative
distances 100, 200, 200, 300, 300, 400, 400 — not 5 at 100..500 as claimed:
the traversal at distance 500 has width 0 (empty buffer) and every interior
segment is buffered twice because the neighbor visited test of the code
never fires — and their union is one non-empty polygon within the
500 m + 200 m square neighborhood of the seed. -/
theorem claim1_amended :
    dijkstra (extractRoadNodes roads1) [(0, 0)] (500 : ℝ) (200 : ℝ) = some ([], 0) ∧
    dijkstra (extractRoadNodes roads10) [(0, 0)] (500 : ℝ) (200 : ℝ) =
      some (expected10.map bufferCast, 0) ∧
    scenario10Facts := by
  refine ⟨scenario1_eval, scenario10_eval, ?_⟩
  unfold scenario10Facts
  with_unfolding_all decide

/-- C1, counterexample: the 10-segment scenario does not emit exactly 5
non-empty buffer polygons (it emits 7). -/
theorem claim1_counterexample :
    ¬ ((dijkstra (extractRoadNodes roads10) [(0, 0)] (500 : ℝ) (200 : ℝ)).map
        (fun out => out.1.countP fun b => decide (NonEmptyBuffer b)) = some 5) := by
  rw [scenario10_eval]
  simp only [Option.map_some']
  rw [List.countP_map]
  have hcong : (expected10.countP ((fun b => decide (NonEmptyBuffer b)) ∘ bufferCast)) =
      expected10.countP fun b => decide (NonEmptyBuffer b) := by
    apply List.countP_congr
    intro b _
    simp only [Function.comp_apply, decide_eq_true_eq]
    exact nonEmptyBuffer_cast b
  rw [hcong]
  have h7 : (expected10.countP fun b => decide (NonEmptyBuffer b)) = 7 := by
    with_unfolding_all decide
  rw [h7]
  simp
